import Mathlib

/-!
Ledger projection engine — verification of the specification against the source

Shallow embedding of the ledger projection logic of the repository:

* `calculateRunway` and `calculateFutureNeeds` from `src/src/App.tsx`
  (runway calculator and funding-need projector);
* the daily balance series computed inside the `BalanceGraph` component
  (`src/unnamed/part_001`), i.e. the running-balance accumulator /
  daily series builder.

Modelling choices:

* Calendar dates are modelled as natural day numbers (`Nat`); the source
  compares dates via `new Date(...).getTime()`, a strictly monotone
  embedding of calendar dates, and groups by value equality of the
  canonical ISO date strings.  Date-parsing failures (`InvalidDate`) are
  a caller precondition per the data model and are not modelled.
* Amounts are `Nat`: per the data model an amount is a non-negative
  magnitude (`NegativeAmount` is rejected at ingestion, before the
  engine); running balances are `Int`.
* `payment_type` (`'White' | 'Black'`) is the channel partition; the
  optional filter argument of the source functions is an
  `Option PaymentType`.
* JavaScript `Array.prototype.sort` is stable and the source sorts with
  comparator `dateA - dateB`; any stable sort by the same order yields
  the same list, so it is modelled by `List.insertionSort dateLE`.
* Fields of a transaction not read by the projection functions
  (`id`, `description`, `category`, `partner_id`, `files`, …) are
  omitted; they do not influence any projection output.
* `new Date()` ("today") is passed explicitly; `days: Infinity` of the
  unbounded result is modelled as `days = none`.
-/

namespace Ledger

/-- The `type` field of a transaction in the source: `'credit' | 'debit'`. -/
inductive TxType where
  | credit
  | debit
deriving DecidableEq, Repr

/-- The `payment_type` field of a transaction: `'White' | 'Black'` — the
two disjoint channels of the ledger. -/
inductive PaymentType where
  | white
  | black
deriving DecidableEq, Repr

instance : BEq TxType := ⟨fun a b => decide (a = b)⟩
instance : BEq PaymentType := ⟨fun a b => decide (a = b)⟩

@[simp] theorem txType_beq_iff (a b : TxType) : (a == b) = true ↔ a = b := by
  simp [BEq.beq]

@[simp] theorem paymentType_beq_iff (a b : PaymentType) : (a == b) = true ↔ a = b := by
  simp [BEq.beq]

/-- A transaction, restricted to the fields the projection engine reads
(`src/src/types/database.ts` plus the `payment_type` column used by
`App.tsx`). -/
structure Transaction where
  type : TxType
  amount : Nat
  date : Nat
  payment_type : PaymentType
deriving DecidableEq, Repr

/-- Signed effect of one transaction on the balance: credits add the
amount, debits subtract it (`t.type === 'credit' ? +amount : -amount`). -/
def txSigned (t : Transaction) : Int :=
  match t.type with
  | .credit => (t.amount : Int)
  | .debit => -(t.amount : Int)

/-- Net signed sum of a list of transactions (the `reduce` used
throughout the source). -/
def netI (l : List Transaction) : Int := (l.map txSigned).sum

/-- The comparator `(a, b) => new Date(a.date).getTime() - new Date(b.date).getTime()`
used by every `sort` call in the source: ascending by date.  JavaScript
`Array.prototype.sort` is a stable sort, and every stable sort by the
same order produces the same list, so the sorting below is modelled by
the (stable, structurally recursive) `List.insertionSort dateLE`. -/
def dateLE (a b : Transaction) : Prop := a.date ≤ b.date

instance : DecidableRel dateLE := fun a b => Nat.decLe a.date b.date

instance : IsTotal Transaction dateLE := ⟨fun a b => Nat.le_total a.date b.date⟩

instance : IsTrans Transaction dateLE := ⟨fun _ _ _ h1 h2 => Nat.le_trans h1 h2⟩

/-- The channel filter applied at the top of `calculateRunway`,
`calculateFutureNeeds` and `BalanceGraph`: keep only the requested
`payment_type`, or everything when no filter is given. -/
def filteredTransactions (p : Option PaymentType) (l : List Transaction) :
    List Transaction :=
  match p with
  | some pt => l.filter (fun t => t.payment_type == pt)
  | none => l

/-- The `RunwayInfo` record of the source, with `days = none` modelling
the `days: Infinity` of the unbounded branches. -/
structure RunwayInfo where
  days : Option Int
  isRunwayExhausted : Bool
  lastSustainableDate : Nat
  amountNeeded : Nat
  isInfinite : Bool
deriving DecidableEq, Repr

/-- Day number of the sentinel `new Date('9999-12-31')` used for the
unbounded result. -/
def farFutureDate : Nat := 2932532

/-- The unbounded (`isInfinite: true`) result object returned by both
unbounded branches of `calculateRunway`. -/
def infiniteRunway : RunwayInfo :=
  { days := none
    isRunwayExhausted := false
    lastSustainableDate := farFutureDate
    amountNeeded := 0
    isInfinite := true }

/-- The `for … break` loop of `calculateRunway`: walk the sorted
transactions, add credits, subtract debits, and stop at the first debit
after which the running balance is strictly negative, returning that
transaction's date and the absolute balance. -/
def runwayLoop : List Transaction → Int → Option (Nat × Nat)
  | [], _ => none
  | t :: rest, bal =>
    match t.type with
    | .credit => runwayLoop rest (bal + (t.amount : Int))
    | .debit =>
      let b := bal - (t.amount : Int)
      if b < 0 then some (t.date, b.natAbs) else runwayLoop rest b

/-- Embedding of `calculateRunway` from `src/src/App.tsx` (lines 173–232): filter by
channel, sort by date, return the unbounded object when the list is
empty or has no debit, otherwise walk transaction by transaction and
report the first debit that drives the running balance negative. -/
def calculateRunway (p : Option PaymentType) (transactions : List Transaction)
    (today : Nat) : RunwayInfo :=
  let sortedTransactions := (filteredTransactions p transactions).insertionSort dateLE
  if sortedTransactions.isEmpty || !(sortedTransactions.any (fun t => t.type == TxType.debit)) then
    infiniteRunway
  else
    match runwayLoop sortedTransactions 0 with
    | none => infiniteRunway
    | some (d, short) =>
      { days := some ((d : Int) - (today : Int))
        isRunwayExhausted := true
        lastSustainableDate := d
        amountNeeded := short
        isInfinite := false }

/-- The `FundingNeed` record of the source: one date, one needed amount. -/
structure FundingNeed where
  date : Nat
  amountNeeded : Nat
deriving DecidableEq, Repr

/-- Loop state of `calculateFutureNeeds`: the running balance, the date
currently being batched (`''` initially, modelled as `none`), the
pending need of that date, and the accumulated output. -/
structure FNState where
  runningBalance : Int
  currentDate : Option Nat
  currentNeed : Int
  fundingNeeds : List FundingNeed
deriving DecidableEq, Repr

/-- The entry flushed when the loop of `calculateFutureNeeds` leaves a
date (and once more after the loop): `{date: currentDate,
amountNeeded: Math.abs(currentNeed)}`, emitted only when
`currentNeed < 0`.  (The `getD 0` default for the initial `none` date is
unreachable: the initial pending need is `0`.) -/
def pendingPush (s : FNState) : List FundingNeed :=
  if s.currentNeed < 0 then
    [{ date := s.currentDate.getD 0, amountNeeded := s.currentNeed.natAbs }]
  else []

/-- One iteration of the `forEach` loop of `calculateFutureNeeds`:
on a date change flush the pending need of the previous date, then apply
the transaction to the running balance, and record a pending need
exactly when this transaction is a debit leaving the balance negative. -/
def fnStep (s : FNState) (t : Transaction) : FNState :=
  let s1 : FNState :=
    if s.currentDate = some t.date then s
    else
      { s with
        fundingNeeds := s.fundingNeeds ++ pendingPush s
        currentDate := some t.date }
  let b := s1.runningBalance + txSigned t
  { s1 with
    runningBalance := b
    currentNeed := if t.type = TxType.debit ∧ b < 0 then b else 0 }

/-- The bounded branch of `calculateFutureNeeds`: start from the balance
of all filtered transactions dated up to the exhaustion date `lsd`, walk
the strictly later transactions in date order, and flush one entry per
date whose pending need is negative. -/
def futureNeedsRun (p : Option PaymentType) (transactions : List Transaction)
    (lsd : Nat) : List FundingNeed :=
  let ft := filteredTransactions p transactions
  let futureTransactions := (ft.filter (fun t => lsd < t.date)).insertionSort dateLE
  let b0 := netI (ft.filter (fun t => t.date ≤ lsd))
  let s := futureTransactions.foldl fnStep
    { runningBalance := b0, currentDate := none, currentNeed := 0, fundingNeeds := [] }
  s.fundingNeeds ++ pendingPush s

/-- Embedding of `calculateFutureNeeds` from `src/src/App.tsx`
(lines 236–289): empty when the runway is not exhausted, otherwise the
loop of `futureNeedsRun` started at the exhaustion date. -/
def calculateFutureNeeds (p : Option PaymentType) (transactions : List Transaction)
    (today : Nat) : List FundingNeed :=
  let runway := calculateRunway p transactions today
  if !runway.isRunwayExhausted then []
  else futureNeedsRun p transactions runway.lastSustainableDate

/-- One point of the gap-filled daily balance series of `BalanceGraph`
(`dailyBalances[dateStr] = { balance, hasTransaction }`). -/
structure DailyBalancePoint where
  date : Nat
  balance : Int
  hasTransaction : Bool
deriving DecidableEq, Repr

/-- The day loop of `BalanceGraph`: for each day of the continuous date
range, sum that day's transactions; a day with transactions advances the
running balance and is marked active, a day without carries the balance
forward and is marked inactive. -/
def seriesFrom (txs : List Transaction) : Int → List Nat → List DailyBalancePoint
  | _, [] => []
  | running, d :: ds =>
    let dayTxs := txs.filter (fun t => t.date = d)
    if dayTxs.isEmpty then
      { date := d, balance := running, hasTransaction := false } :: seriesFrom txs running ds
    else
      let r := running + netI dayTxs
      { date := d, balance := r, hasTransaction := true } :: seriesFrom txs r ds

/-- Embedding of `Array.from(new Set(...map(t => t.date))).sort()` in
`BalanceGraph`: the distinct transaction dates in ascending order. -/
def transactionDates (txs : List Transaction) : List Nat :=
  List.insertionSort (fun a b => a ≤ b) ((txs.map (fun t => t.date)).dedup)

/-- The continuous date range of `BalanceGraph`, from the first to the
last distinct transaction date inclusive; empty when there are no
transactions (the `for (let d = startDate; d <= endDate; …)` loop body
never runs on an invalid start date). -/
def dateRange (txs : List Transaction) : List Nat :=
  match (transactionDates txs).head?, (transactionDates txs).getLast? with
  | some s, some e => List.range' s (e + 1 - s)
  | _, _ => []

/-- The gap-filled daily balance series of `BalanceGraph`
(`src/unnamed/part_001`, lines 101–133): filter by channel, sort by
date, then walk the continuous date range accumulating day balances. -/
def dailySeries (p : Option PaymentType) (transactions : List Transaction) :
    List DailyBalancePoint :=
  let ft := (filteredTransactions p transactions).insertionSort dateLE
  seriesFrom ft 0 (dateRange ft)

/-- Embedding of `Math.max(...balances, 0)` over the series of `BalanceGraph`. -/
def maxBalance (p : Option PaymentType) (transactions : List Transaction) : Int :=
  ((dailySeries p transactions).map (fun q => q.balance)).foldr max 0

/-- Embedding of `Math.min(...balances, 0)` over the series of `BalanceGraph`. -/
def minBalance (p : Option PaymentType) (transactions : List Transaction) : Int :=
  ((dailySeries p transactions).map (fun q => q.balance)).foldr min 0

/-- The ledger of §8 "Exhaustion correctness": credit 100 on day 1,
debit 30 on day 2, debit 90 on day 3, one channel. -/
def exampleLedger3 : List Transaction :=
  [⟨TxType.credit, 100, 1, PaymentType.white⟩,
   ⟨TxType.debit, 30, 2, PaymentType.white⟩,
   ⟨TxType.debit, 90, 3, PaymentType.white⟩]

/-- The ledger of §8 "Funding-need continuation": the previous one plus
debit 10 on day 4 and credit 5 on day 5. -/
def exampleLedger5 : List Transaction :=
  [⟨TxType.credit, 100, 1, PaymentType.white⟩,
   ⟨TxType.debit, 30, 2, PaymentType.white⟩,
   ⟨TxType.debit, 90, 3, PaymentType.white⟩,
   ⟨TxType.debit, 10, 4, PaymentType.white⟩,
   ⟨TxType.credit, 5, 5, PaymentType.white⟩]

/-- The ledger of §8 "Same-day batching": credit 50 then debit 80 on the
same day. -/
def sameDayLedger : List Transaction :=
  [⟨TxType.credit, 50, 1, PaymentType.white⟩,
   ⟨TxType.debit, 80, 1, PaymentType.white⟩]

/-- A ledger with a transient intra-day negative swing: debit 80 then
credit 100, both on day 1, so the day nets +20. -/
def maskLedger : List Transaction :=
  [⟨TxType.debit, 80, 1, PaymentType.white⟩,
   ⟨TxType.credit, 100, 1, PaymentType.white⟩]

/-- The transient-swing ledger followed by debit 30 on day 2, so the
first day whose post-day balance is negative is day 2 (with balance
−10). -/
def maskLedger2 : List Transaction :=
  [⟨TxType.debit, 80, 1, PaymentType.white⟩,
   ⟨TxType.credit, 100, 1, PaymentType.white⟩,
   ⟨TxType.debit, 30, 2, PaymentType.white⟩]

/-- The ledger of §8 "Daily series gap-fill": transactions only on day 1
(credit 100) and day 4 (debit 100). -/
def gapLedger : List Transaction :=
  [⟨TxType.credit, 100, 1, PaymentType.white⟩,
   ⟨TxType.debit, 100, 4, PaymentType.white⟩]

/-- Boolean check that, starting from balance `b`, every prefix of the
processed transaction sequence leaves the running balance
non-negative. -/
def prefixesNonneg : Int → List Transaction → Bool
  | _, [] => true
  | b, t :: rest => decide (0 ≤ b + txSigned t) && prefixesNonneg (b + txSigned t) rest

@[simp] theorem netI_nil : netI [] = 0 := rfl

@[simp] theorem netI_cons (t : Transaction) (l : List Transaction) :
    netI (t :: l) = txSigned t + netI l := by
  simp [netI]

theorem netI_append (l1 l2 : List Transaction) :
    netI (l1 ++ l2) = netI l1 + netI l2 := by
  simp [netI]

theorem netI_perm {l1 l2 : List Transaction} (h : l1.Perm l2) : netI l1 = netI l2 :=
  List.Perm.sum_eq (h.map txSigned)

theorem runwayLoop_eq_none_of_prefixesNonneg :
    ∀ (l : List Transaction) (b : Int), prefixesNonneg b l = true → runwayLoop l b = none := by
  intro l
  induction l with
  | nil => intro b _; rfl
  | cons t rest ih =>
    intro b h
    simp only [prefixesNonneg, Bool.and_eq_true, decide_eq_true_eq] at h
    obtain ⟨h1, h2⟩ := h
    obtain ⟨ty, am, da, pt⟩ := t
    cases ty with
    | credit =>
      simpa only [runwayLoop] using ih _ h2
    | debit =>
      have hs : txSigned ⟨TxType.debit, am, da, pt⟩ = -(am : Int) := rfl
      rw [hs] at h1 h2
      simp only [runwayLoop]
      rw [if_neg (by omega)]
      have : b - (am : Int) = b + -(am : Int) := by ring
      rw [this]
      exact ih _ h2

theorem runwayLoop_pos :
    ∀ (l : List Transaction) (b : Int) (d a : Nat), runwayLoop l b = some (d, a) → 0 < a := by
  intro l
  induction l with
  | nil => intro b d a h; cases h
  | cons t rest ih =>
    intro b d a h
    obtain ⟨ty, am, da, pt⟩ := t
    cases ty with
    | credit => exact ih _ d a h
    | debit =>
      simp only [runwayLoop] at h
      by_cases hneg : b - (am : Int) < 0
      · rw [if_pos hneg] at h
        obtain ⟨hd, ha⟩ := Prod.mk.injEq .. ▸ (Option.some.injEq .. ▸ h)
        omega
      · rw [if_neg hneg] at h
        exact ih _ d a h

theorem calculateRunway_cases (p : Option PaymentType) (l : List Transaction) (today : Nat) :
    calculateRunway p l today = infiniteRunway ∨
    ∃ d a, runwayLoop ((filteredTransactions p l).insertionSort dateLE) 0 = some (d, a) ∧
      calculateRunway p l today =
        { days := some ((d : Int) - (today : Int))
          isRunwayExhausted := true
          lastSustainableDate := d
          amountNeeded := a
          isInfinite := false } := by
  simp only [calculateRunway]
  split
  · exact Or.inl rfl
  · cases hr : runwayLoop ((filteredTransactions p l).insertionSort dateLE) 0 with
    | none => exact Or.inl rfl
    | some v => exact Or.inr ⟨v.1, v.2, rfl, rfl⟩

theorem calculateRunway_exhausted_eq {p : Option PaymentType} {l : List Transaction}
    {today : Nat} (h : (calculateRunway p l today).isRunwayExhausted = true) :
    ∃ d a, runwayLoop ((filteredTransactions p l).insertionSort dateLE) 0 = some (d, a) ∧
      calculateRunway p l today =
        { days := some ((d : Int) - (today : Int))
          isRunwayExhausted := true
          lastSustainableDate := d
          amountNeeded := a
          isInfinite := false } := by
  rcases calculateRunway_cases p l today with hc | hc
  · rw [hc] at h; cases h
  · exact hc

theorem calculateFutureNeeds_of_exhausted {p : Option PaymentType} {l : List Transaction}
    {today : Nat} (h : (calculateRunway p l today).isRunwayExhausted = true) :
    calculateFutureNeeds p l today =
      futureNeedsRun p l (calculateRunway p l today).lastSustainableDate := by
  simp [calculateFutureNeeds, h]

theorem calculateFutureNeeds_of_not_exhausted {p : Option PaymentType} {l : List Transaction}
    {today : Nat} (h : (calculateRunway p l today).isRunwayExhausted = false) :
    calculateFutureNeeds p l today = [] := by
  simp [calculateFutureNeeds, h]

/-- C7: the runway of channel `p` is a function of the ledger's
channel-`p` projection alone — two ledgers whose channel-`p`
transactions agree (in order and content) give identical channel-`p`
runway results, whatever channel-`B` transactions are added, removed or
altered. -/
theorem runway_channel_independence (l1 l2 : List Transaction) (p : PaymentType)
    (today : Nat)
    (h : l1.filter (fun t => t.payment_type == p) = l2.filter (fun t => t.payment_type == p)) :
    calculateRunway (some p) l1 today = calculateRunway (some p) l2 today := by
  simp only [calculateRunway, filteredTransactions, h]

/-- Witness for C7: injecting a channel-`Black` transaction leaves the
channel-`White` runway unchanged. -/
theorem runway_channel_independence_witness :
    calculateRunway (some PaymentType.white)
        [⟨TxType.credit, 5, 1, PaymentType.white⟩] 0 =
      calculateRunway (some PaymentType.white)
        [⟨TxType.credit, 5, 1, PaymentType.white⟩, ⟨TxType.debit, 100, 1, PaymentType.black⟩] 0 :=
  runway_channel_independence _ _ _ _ (by decide)

/-- C4 (amended): the empty filtered ledger, a filtered ledger with no
debit, and a filtered ledger whose running balance never goes strictly
negative after any prefix of the processed (date-sorted, input-stable)
transaction sequence all produce the unbounded result — the ordinary
value `infiniteRunway` with `isRunwayExhausted = false` and
`amountNeeded = 0` (the function is total: no exception, no null). -/
theorem runway_unbounded_cases (p : Option PaymentType) (l : List Transaction)
    (today : Nat) :
    (filteredTransactions p l = [] → calculateRunway p l today = infiniteRunway) ∧
    ((∀ t ∈ filteredTransactions p l, t.type = TxType.credit) →
      calculateRunway p l today = infiniteRunway) ∧
    (prefixesNonneg 0 ((filteredTransactions p l).insertionSort dateLE) = true →
      calculateRunway p l today = infiniteRunway) := by
  refine ⟨?_, ?_, ?_⟩
  · intro h
    simp [calculateRunway, h]
  · intro h
    have hany : ((filteredTransactions p l).insertionSort dateLE).any
        (fun t => t.type == TxType.debit) = false := by
      simp only [List.any_eq_false]
      intro t ht
      have hmem : t ∈ filteredTransactions p l := (List.mem_insertionSort dateLE).mp ht
      simp [h t hmem]
    simp [calculateRunway, hany]
  · intro h
    have hrl := runwayLoop_eq_none_of_prefixesNonneg _ 0 h
    simp only [calculateRunway, hrl]
    split
    · rfl
    · rfl

/-- C4 counterexample: for the ledger [debit 80 on day 1, credit 100 on
day 1] the day-walk balance never goes strictly negative (its only day
nets +20), yet the runway calculator reports a bounded, exhausted
runway. -/
theorem runway_unbounded_cases_counterexample :
    (∀ q ∈ dailySeries none maskLedger, 0 ≤ q.balance) ∧
    (calculateRunway none maskLedger 0).isInfinite = false ∧
    (calculateRunway none maskLedger 0).isRunwayExhausted = true := by
  decide

/-- Witness for C4: a ledger whose debits never drive any prefix balance
negative is reported unbounded. -/
theorem runway_unbounded_cases_witness :
    calculateRunway none
        [⟨TxType.credit, 100, 1, PaymentType.white⟩, ⟨TxType.debit, 40, 2, PaymentType.white⟩] 0 =
      infiniteRunway :=
  (runway_unbounded_cases none _ 0).2.2 (by decide)

theorem fnStep_runningBalance (s : FNState) (t : Transaction) :
    (fnStep s t).runningBalance = s.runningBalance + txSigned t := by
  simp only [fnStep]
  split <;> rfl

theorem fnStep_currentDate (s : FNState) (t : Transaction) :
    (fnStep s t).currentDate = some t.date := by
  simp only [fnStep]
  split
  · rename_i h; exact h
  · rfl

theorem fnStep_currentNeed (s : FNState) (t : Transaction) :
    (fnStep s t).currentNeed =
      if t.type = TxType.debit ∧ s.runningBalance + txSigned t < 0
      then s.runningBalance + txSigned t else 0 := by
  simp only [fnStep]
  split <;> rfl

theorem fnStep_fundingNeeds (s : FNState) (t : Transaction) :
    (fnStep s t).fundingNeeds =
      if s.currentDate = some t.date then s.fundingNeeds
      else s.fundingNeeds ++ pendingPush s := by
  simp only [fnStep]
  split <;> simp_all

theorem pendingPush_prop (X : Nat) (s : FNState)
    (hpend : s.currentNeed < 0 → ∃ d, s.currentDate = some d ∧ X < d) :
    ∀ e ∈ pendingPush s, X < e.date ∧ 0 < e.amountNeeded := by
  intro e he
  unfold pendingPush at he
  split at he
  · rename_i hlt
    obtain ⟨d, hd, hXd⟩ := hpend hlt
    simp only [List.mem_singleton] at he
    subst he
    refine ⟨by simpa [hd], ?_⟩
    simp only
    omega
  · cases he

theorem fnRun_invariant (X : Nat) :
    ∀ (l : List Transaction) (s : FNState),
      (∀ t ∈ l, X < t.date) →
      (∀ e ∈ s.fundingNeeds, X < e.date ∧ 0 < e.amountNeeded) →
      (s.currentNeed < 0 → ∃ d, s.currentDate = some d ∧ X < d) →
      ∀ e ∈ (l.foldl fnStep s).fundingNeeds ++ pendingPush (l.foldl fnStep s),
        X < e.date ∧ 0 < e.amountNeeded := by
  intro l
  induction l with
  | nil =>
    intro s hl hneeds hpend e he
    simp only [List.foldl_nil] at he
    rcases List.mem_append.mp he with h | h
    · exact hneeds e h
    · exact pendingPush_prop X s hpend e h
  | cons t rest ih =>
    intro s hl hneeds hpend e he
    simp only [List.foldl_cons] at he
    refine ih (fnStep s t) (fun u hu => hl u (List.mem_cons_of_mem _ hu)) ?_ ?_ e he
    · intro e' he'
      rw [fnStep_fundingNeeds] at he'
      split at he'
      · exact hneeds e' he'
      · rcases List.mem_append.mp he' with h | h
        · exact hneeds e' h
        · exact pendingPush_prop X s hpend e' h
    · intro hlt
      rw [fnStep_currentNeed] at hlt
      split at hlt
      · exact ⟨t.date, fnStep_currentDate s t, hl t (List.mem_cons_self t rest)⟩
      · omega

theorem futureNeedsRun_entries (p : Option PaymentType) (l : List Transaction) (lsd : Nat) :
    ∀ e ∈ futureNeedsRun p l lsd, lsd < e.date ∧ 0 < e.amountNeeded := by
  intro e he
  simp only [futureNeedsRun] at he
  refine fnRun_invariant lsd _ _ ?_ ?_ ?_ e he
  · intro t ht
    have hm := (List.mem_insertionSort dateLE).mp ht
    simpa using (List.mem_filter.mp hm).2
  · intro e' he'
    cases he'
  · intro hlt
    simp at hlt

/-- C8: an unbounded runway yields an empty funding-need list, and every
emitted funding need is dated strictly after the exhaustion date (the
exhaustion day's own shortfall is never duplicated). -/
theorem funding_needs_after_exhaustion (p : Option PaymentType) (l : List Transaction)
    (today : Nat) :
    ((calculateRunway p l today).isRunwayExhausted = false →
      calculateFutureNeeds p l today = []) ∧
    (∀ e ∈ calculateFutureNeeds p l today,
      (calculateRunway p l today).lastSustainableDate < e.date) := by
  constructor
  · exact fun h => calculateFutureNeeds_of_not_exhausted h
  · intro e he
    by_cases h : (calculateRunway p l today).isRunwayExhausted = true
    · rw [calculateFutureNeeds_of_exhausted h] at he
      exact (futureNeedsRun_entries _ _ _ e he).1
    · rw [calculateFutureNeeds_of_not_exhausted (by simpa using h)] at he
      cases he

/-- Witness for C8: the empty ledger is unbounded and gets an empty
funding-need list. -/
theorem funding_needs_after_exhaustion_witness :
    calculateFutureNeeds none [] 0 = [] :=
  (funding_needs_after_exhaustion none [] 0).1 (by decide)

/-- C10: every reported shortfall is strictly positive — the
`amountNeeded` of a bounded runway result, and the `amountNeeded` of
every emitted funding need. -/
theorem shortfalls_positive (p : Option PaymentType) (l : List Transaction)
    (today : Nat) :
    ((calculateRunway p l today).isRunwayExhausted = true →
      0 < (calculateRunway p l today).amountNeeded) ∧
    (∀ e ∈ calculateFutureNeeds p l today, 0 < e.amountNeeded) := by
  constructor
  · intro h
    obtain ⟨d, a, hr, heq⟩ := calculateRunway_exhausted_eq h
    rw [heq]
    exact runwayLoop_pos _ 0 d a hr
  · intro e he
    by_cases h : (calculateRunway p l today).isRunwayExhausted = true
    · rw [calculateFutureNeeds_of_exhausted h] at he
      exact (futureNeedsRun_entries _ _ _ e he).2
    · rw [calculateFutureNeeds_of_not_exhausted (by simpa using h)] at he
      cases he

/-- Witness for C10: the §8 exhaustion ledger is bounded with a strictly
positive shortfall. -/
theorem shortfalls_positive_witness :
    0 < (calculateRunway none exampleLedger3 0).amountNeeded :=
  (shortfalls_positive none exampleLedger3 0).1 (by decide)

theorem isEmpty_eq_of_perm {α : Type _} {l1 l2 : List α} (h : l1.Perm l2) :
    l1.isEmpty = l2.isEmpty := by
  cases l1 <;> cases l2 <;> simp_all

theorem filter_date_congr (txs : List Transaction) (d : Nat) :
    txs.filter (fun t => decide (t.date < d + 1)) =
      txs.filter (fun t => decide (t.date ≤ d)) := by
  apply List.filter_congr
  intro t _
  simp [Nat.lt_succ_iff]

theorem netI_filter_le (txs : List Transaction) (d : Nat) :
    netI (txs.filter (fun t => decide (t.date ≤ d))) =
      netI (txs.filter (fun t => decide (t.date < d))) +
        netI (txs.filter (fun t => decide (t.date = d))) := by
  induction txs with
  | nil => simp
  | cons t rest ih =>
    rw [List.filter_cons, List.filter_cons, List.filter_cons]
    by_cases h2 : t.date = d
    · rw [if_pos (by simp only [decide_eq_true_eq]; omega),
        if_neg (by simp only [decide_eq_true_eq]; omega),
        if_pos (by simp only [decide_eq_true_eq]; omega)]
      simp only [netI_cons]
      rw [ih]
      ring
    · by_cases h3 : t.date < d
      · rw [if_pos (by simp only [decide_eq_true_eq]; omega),
          if_pos (by simp only [decide_eq_true_eq]; omega),
          if_neg (by simp only [decide_eq_true_eq]; omega)]
        simp only [netI_cons]
        rw [ih]
        ring
      · rw [if_neg (by simp only [decide_eq_true_eq]; omega),
          if_neg (by simp only [decide_eq_true_eq]; omega),
          if_neg (by simp only [decide_eq_true_eq]; omega)]
        exact ih

theorem seriesFrom_cons_empty (txs : List Transaction) (r : Int) (d : Nat) (ds : List Nat)
    (h : (txs.filter (fun t => decide (t.date = d))).isEmpty = true) :
    seriesFrom txs r (d :: ds) =
      { date := d, balance := r, hasTransaction := false } :: seriesFrom txs r ds := by
  simp [seriesFrom, h]

theorem seriesFrom_cons_active (txs : List Transaction) (r : Int) (d : Nat) (ds : List Nat)
    (h : (txs.filter (fun t => decide (t.date = d))).isEmpty = false) :
    seriesFrom txs r (d :: ds) =
      { date := d, balance := r + netI (txs.filter (fun t => decide (t.date = d))),
        hasTransaction := true } ::
        seriesFrom txs (r + netI (txs.filter (fun t => decide (t.date = d)))) ds := by
  simp [seriesFrom, h]

theorem seriesFrom_range (txs : List Transaction) :
    ∀ (n d0 : Nat),
      seriesFrom txs (netI (txs.filter (fun t => decide (t.date < d0)))) (List.range' d0 n) =
        (List.range' d0 n).map (fun d =>
          { date := d,
            balance := netI (txs.filter (fun t => decide (t.date ≤ d))),
            hasTransaction := !((txs.filter (fun t => decide (t.date = d))).isEmpty) }) := by
  intro n
  induction n with
  | zero => intro d0; rfl
  | succ n ih =>
    intro d0
    have hsplit := netI_filter_le txs d0
    have hnext : netI (txs.filter (fun t => decide (t.date < d0 + 1))) =
        netI (txs.filter (fun t => decide (t.date ≤ d0))) := by
      rw [filter_date_congr]
    rw [List.range'_succ, List.map_cons]
    by_cases he : (txs.filter (fun t => decide (t.date = d0))).isEmpty = true
    · have hz : netI (txs.filter (fun t => decide (t.date = d0))) = 0 := by
        rw [List.isEmpty_iff.mp he]
        rfl
      rw [seriesFrom_cons_empty txs _ d0 _ he]
      congr 1
      · have hb : netI (txs.filter (fun t => decide (t.date ≤ d0))) =
            netI (txs.filter (fun t => decide (t.date < d0))) := by omega
        simp [DailyBalancePoint.mk.injEq, he, hb]
      · have hrun : netI (txs.filter (fun t => decide (t.date < d0))) =
            netI (txs.filter (fun t => decide (t.date < d0 + 1))) := by
          omega
        rw [hrun, ih (d0 + 1)]
    · have he2 : (txs.filter (fun t => decide (t.date = d0))).isEmpty = false := by
        simpa using he
      rw [seriesFrom_cons_active txs _ d0 _ he2]
      congr 1
      · simp [DailyBalancePoint.mk.injEq, he2, hsplit]
      · have hrun : netI (txs.filter (fun t => decide (t.date < d0))) +
            netI (txs.filter (fun t => decide (t.date = d0))) =
            netI (txs.filter (fun t => decide (t.date < d0 + 1))) := by
          omega
        rw [hrun, ih (d0 + 1)]

theorem mem_transactionDates (txs : List Transaction) (d : Nat) :
    d ∈ transactionDates txs ↔ ∃ t ∈ txs, t.date = d := by
  simp [transactionDates, List.mem_insertionSort, List.mem_dedup, List.mem_map]

theorem transactionDates_sorted (txs : List Transaction) :
    (transactionDates txs).Pairwise (fun a b : Nat => a ≤ b) :=
  List.sorted_insertionSort _ _

theorem sorted_getLast_max :
    ∀ (l : List Nat), l.Pairwise (fun a b : Nat => a ≤ b) →
      ∀ e, l.getLast? = some e → ∀ a ∈ l, a ≤ e := by
  intro l
  induction l with
  | nil =>
    intro _ e he
    cases he
  | cons x rest ih =>
    intro hp e he a ha
    cases rest with
    | nil =>
      simp only [List.getLast?_singleton, Option.some.injEq] at he
      simp only [List.mem_singleton] at ha
      omega
    | cons y r =>
      rw [List.getLast?_cons_cons] at he
      have hrest := (List.pairwise_cons.mp hp).2
      rcases List.mem_cons.mp ha with rfl | ha2
      · have hmem : e ∈ y :: r := List.mem_of_getLast?_eq_some he
        exact (List.pairwise_cons.mp hp).1 _ hmem
      · exact ih hrest e he a ha2

/-- The value the series characterization assigns to day `d`: the
cumulative post-day balance of the ledger and an activity flag recording
whether day `d` has a transaction. -/
def dayPoint (txs : List Transaction) (d : Nat) : DailyBalancePoint :=
  { date := d,
    balance := netI (txs.filter (fun t => decide (t.date ≤ d))),
    hasTransaction := !((txs.filter (fun t => decide (t.date = d))).isEmpty) }

@[simp] theorem dayPoint_date (txs : List Transaction) (d : Nat) :
    (dayPoint txs d).date = d := rfl

@[simp] theorem dayPoint_balance (txs : List Transaction) (d : Nat) :
    (dayPoint txs d).balance = netI (txs.filter (fun t => decide (t.date ≤ d))) := rfl

@[simp] theorem dayPoint_hasTransaction (txs : List Transaction) (d : Nat) :
    (dayPoint txs d).hasTransaction =
      !((txs.filter (fun t => decide (t.date = d))).isEmpty) := rfl

theorem dailySeries_eq_map (p : Option PaymentType) (l : List Transaction)
    (hne : filteredTransactions p l ≠ []) :
    ∃ s e,
      (∃ t ∈ filteredTransactions p l, t.date = s) ∧
      (∃ t ∈ filteredTransactions p l, t.date = e) ∧
      (∀ t ∈ filteredTransactions p l, s ≤ t.date ∧ t.date ≤ e) ∧
      dailySeries p l =
        (List.range' s (e + 1 - s)).map (dayPoint (filteredTransactions p l)) := by
  have hperm : ((filteredTransactions p l).insertionSort dateLE).Perm
      (filteredTransactions p l) := List.perm_insertionSort dateLE _
  set ft := filteredTransactions p l with hft
  set st := ft.insertionSort dateLE with hst
  have hstne : st ≠ [] := by
    intro h0
    apply hne
    have h2 := hperm.symm
    rw [h0] at h2
    exact h2.eq_nil
  have hmem_st_ft : ∀ t : Transaction, t ∈ st ↔ t ∈ ft := fun t => hperm.mem_iff
  have htdne : transactionDates st ≠ [] := by
    obtain ⟨t, ht⟩ := List.exists_mem_of_ne_nil st hstne
    intro h0
    have hmem : t.date ∈ transactionDates st :=
      (mem_transactionDates st t.date).mpr ⟨t, ht, rfl⟩
    rw [h0] at hmem
    cases hmem
  obtain ⟨s0, rest, htd⟩ : ∃ s0 rest, transactionDates st = s0 :: rest := by
    cases htd0 : transactionDates st with
    | nil => exact absurd htd0 htdne
    | cons a r => exact ⟨a, r, rfl⟩
  have hsorted := transactionDates_sorted st
  have hgetLast : (transactionDates st).getLast? =
      some ((transactionDates st).getLast htdne) :=
    List.getLast?_eq_getLast _ htdne
  set e0 := (transactionDates st).getLast htdne with he0
  have hs0min : ∀ d ∈ transactionDates st, s0 ≤ d := by
    intro d hd
    rw [htd] at hd hsorted
    rcases List.mem_cons.mp hd with rfl | hd2
    · exact Nat.le_refl d
    · exact (List.pairwise_cons.mp hsorted).1 d hd2
  have he0max : ∀ d ∈ transactionDates st, d ≤ e0 :=
    sorted_getLast_max _ hsorted e0 hgetLast
  have hdatemem : ∀ t ∈ ft, t.date ∈ transactionDates st := by
    intro t ht
    exact (mem_transactionDates st t.date).mpr ⟨t, (hmem_st_ft t).mpr ht, rfl⟩
  have hgl2 : (s0 :: rest).getLast? = some e0 := htd ▸ hgetLast
  have hrange : dateRange st = List.range' s0 (e0 + 1 - s0) := by
    simp only [dateRange, htd, List.head?_cons, hgl2]
  have hstart : st.filter (fun t => decide (t.date < s0)) = [] := by
    apply List.filter_eq_nil_iff.mpr
    intro t ht
    have hle : s0 ≤ t.date :=
      hs0min t.date ((mem_transactionDates st t.date).mpr ⟨t, ht, rfl⟩)
    simp only [decide_eq_true_eq]
    omega
  have hz : (0 : Int) = netI (st.filter (fun t => decide (t.date < s0))) := by
    rw [hstart]
    rfl
  have hds : dailySeries p l = seriesFrom st 0 (dateRange st) := by
    simp only [dailySeries]
  have hchain : dailySeries p l =
      (List.range' s0 (e0 + 1 - s0)).map (fun d =>
        { date := d,
          balance := netI (st.filter (fun t => decide (t.date ≤ d))),
          hasTransaction := !((st.filter (fun t => decide (t.date = d))).isEmpty) }) := by
    rw [hds, hrange, hz]
    exact seriesFrom_range st (e0 + 1 - s0) s0
  have hpoint : ∀ d : Nat,
      ({ date := d,
         balance := netI (st.filter (fun t => decide (t.date ≤ d))),
         hasTransaction := !((st.filter (fun t => decide (t.date = d))).isEmpty) } :
           DailyBalancePoint) = dayPoint ft d := by
    intro d
    have h1 := netI_perm (hperm.filter (fun t => decide (t.date ≤ d)))
    have h2 := isEmpty_eq_of_perm (hperm.filter (fun t => decide (t.date = d)))
    simp [DailyBalancePoint.mk.injEq, dayPoint, h1, h2]
  refine ⟨s0, e0, ?_, ?_, ?_, ?_⟩
  · have : s0 ∈ transactionDates st := htd ▸ List.mem_cons_self s0 rest
    obtain ⟨t, ht, hdt⟩ := (mem_transactionDates st s0).mp this
    exact ⟨t, (hmem_st_ft t).mp ht, hdt⟩
  · have : e0 ∈ transactionDates st := he0 ▸ List.getLast_mem htdne
    obtain ⟨t, ht, hdt⟩ := (mem_transactionDates st e0).mp this
    exact ⟨t, (hmem_st_ft t).mp ht, hdt⟩
  · intro t ht
    exact ⟨hs0min t.date (hdatemem t ht), he0max t.date (hdatemem t ht)⟩
  · rw [hchain]
    exact List.map_congr_left (fun d _ => hpoint d)

theorem chain'_range' (R : Nat → Nat → Prop) (h : ∀ d, R d (d + 1)) :
    ∀ (n s : Nat), List.Chain' R (List.range' s n) := by
  intro n
  induction n with
  | zero => intro s; simp
  | succ n ih =>
    intro s
    rw [List.range'_succ, List.chain'_cons']
    refine ⟨?_, ih (s + 1)⟩
    intro y hy
    cases n with
    | zero => simp at hy
    | succ m =>
      rw [List.range'_succ] at hy
      simp only [List.head?_cons, Option.mem_def, Option.some.injEq] at hy
      subst hy
      exact h s

theorem dailySeries_nil (p : Option PaymentType) (l : List Transaction)
    (h : filteredTransactions p l = []) : dailySeries p l = [] := by
  simp [dailySeries, h, transactionDates, dateRange, List.insertionSort, seriesFrom]

theorem foldr_min_le (l : List Int) : ∀ b : Int, l.foldr min b ≤ b := by
  induction l with
  | nil => intro b; simp
  | cons x xs ih =>
    intro b
    simp only [List.foldr_cons]
    exact le_trans (min_le_right _ _) (ih b)

theorem le_foldr_max (l : List Int) : ∀ b : Int, b ≤ l.foldr max b := by
  induction l with
  | nil => intro b; simp
  | cons x xs ih =>
    intro b
    simp only [List.foldr_cons]
    exact le_trans (ih b) (le_max_right _ _)

/-- Sum of the amounts of the credit transactions of a ledger. -/
def creditTotal (l : List Transaction) : Nat :=
  ((l.filter (fun t => decide (t.type = TxType.credit))).map (fun t => t.amount)).sum

/-- Sum of the amounts of the debit transactions of a ledger. -/
def debitTotal (l : List Transaction) : Nat :=
  ((l.filter (fun t => decide (t.type = TxType.debit))).map (fun t => t.amount)).sum

theorem netI_eq_totals :
    ∀ l : List Transaction, netI l = (creditTotal l : Int) - (debitTotal l : Int) := by
  intro l
  induction l with
  | nil => simp [creditTotal, debitTotal]
  | cons t rest ih =>
    obtain ⟨ty, am, da, pt⟩ := t
    cases ty
    all_goals simp [creditTotal, debitTotal, List.filter_cons, txSigned, ih]
    all_goals ring

theorem filter_date_not_empty_iff (txs : List Transaction) (d : Nat) :
    (!(txs.filter (fun t => decide (t.date = d))).isEmpty) = true ↔
      ∃ t ∈ txs, t.date = d := by
  rw [Bool.not_eq_true', ← Bool.not_eq_true]
  constructor
  · intro hbe
    have hne : txs.filter (fun t => decide (t.date = d)) ≠ [] := by
      intro h0
      apply hbe
      rw [h0]
      rfl
    obtain ⟨t, ht⟩ := List.exists_mem_of_ne_nil _ hne
    have hm := List.mem_filter.mp ht
    exact ⟨t, hm.1, by simpa using hm.2⟩
  · rintro ⟨t, ht, rfl⟩ hbe
    have : t ∈ txs.filter (fun t2 => decide (t2.date = t.date)) :=
      List.mem_filter.mpr ⟨ht, by simp⟩
    rw [List.isEmpty_iff.mp hbe] at this
    cases this

/-- C5: for a non-empty filtered ledger the daily series has exactly one
point per calendar day from the earliest to the latest transaction date
inclusive; every point carries the cumulative post-day balance (hence a
day without transactions carries the previous day's balance forward, as
the carry-forward chain conjunct states) and is marked active exactly
when the day has a transaction; the §8 gap-fill scenario produces
day1(100, active), day2(100, inactive), day3(100, inactive),
day4(0, active). -/
theorem daily_series_gap_fill (p : Option PaymentType) (l : List Transaction)
    (hne : filteredTransactions p l ≠ []) :
    (∃ s e,
      (∃ t ∈ filteredTransactions p l, t.date = s) ∧
      (∃ t ∈ filteredTransactions p l, t.date = e) ∧
      (∀ t ∈ filteredTransactions p l, s ≤ t.date ∧ t.date ≤ e) ∧
      (dailySeries p l).map (fun q => q.date) = List.range' s (e + 1 - s)) ∧
    (∀ q ∈ dailySeries p l,
      q.balance =
        netI ((filteredTransactions p l).filter (fun t => decide (t.date ≤ q.date))) ∧
      (q.hasTransaction = true ↔ ∃ t ∈ filteredTransactions p l, t.date = q.date)) ∧
    List.Chain' (fun q q2 : DailyBalancePoint =>
      q2.hasTransaction = false → q2.balance = q.balance) (dailySeries p l) ∧
    dailySeries none gapLedger =
      [{ date := 1, balance := 100, hasTransaction := true },
       { date := 2, balance := 100, hasTransaction := false },
       { date := 3, balance := 100, hasTransaction := false },
       { date := 4, balance := 0, hasTransaction := true }] := by
  obtain ⟨s, e, hs, he, hb, heq⟩ := dailySeries_eq_map p l hne
  refine ⟨⟨s, e, hs, he, hb, ?_⟩, ?_, ?_, by decide⟩
  · rw [heq, List.map_map]
    have hcomp : ((fun q : DailyBalancePoint => q.date) ∘
        dayPoint (filteredTransactions p l)) = fun d => d := rfl
    rw [hcomp]
    simp
  · intro q hq
    rw [heq] at hq
    obtain ⟨d, _, rfl⟩ := List.mem_map.mp hq
    exact ⟨rfl, filter_date_not_empty_iff _ d⟩
  · rw [heq, List.chain'_map]
    apply chain'_range'
    intro d hF
    have hF2 : ((filteredTransactions p l).filter
        (fun t => decide (t.date = d + 1))).isEmpty = true := by
      simpa using hF
    have hz : netI ((filteredTransactions p l).filter
        (fun t => decide (t.date = d + 1))) = 0 := by
      rw [List.isEmpty_iff.mp hF2]
      rfl
    have hsplit := netI_filter_le (filteredTransactions p l) (d + 1)
    have hcongr : netI ((filteredTransactions p l).filter
          (fun t => decide (t.date < d + 1))) =
        netI ((filteredTransactions p l).filter (fun t => decide (t.date ≤ d))) := by
      rw [filter_date_congr]
    simp only [dayPoint_balance]
    omega

/-- Witness for C5: the §8 gap-fill ledger is non-empty and its series
is the expected four-point sequence. -/
theorem daily_series_gap_fill_witness :
    dailySeries none gapLedger =
      [{ date := 1, balance := 100, hasTransaction := true },
       { date := 2, balance := 100, hasTransaction := false },
       { date := 3, balance := 100, hasTransaction := false },
       { date := 4, balance := 0, hasTransaction := true }] :=
  (daily_series_gap_fill none gapLedger (by decide)).2.2.2

/-- C6: for every ledger and channel filter with a non-empty filtered
projection, the balance of the final entry of the daily balance walk is
the sum of the credit amounts minus the sum of the debit amounts of the
filtered ledger. -/
theorem final_balance_eq_totals (p : Option PaymentType) (l : List Transaction)
    (hne : filteredTransactions p l ≠ []) :
    ((dailySeries p l).getLast?).map (fun q => q.balance) =
      some ((creditTotal (filteredTransactions p l) : Int) -
        (debitTotal (filteredTransactions p l) : Int)) := by
  obtain ⟨s, e, _, ⟨te, hte, htedate⟩, hb, heq⟩ := dailySeries_eq_map p l hne
  have hse : s ≤ e := by
    have := hb te hte
    omega
  have hn : e + 1 - s = (e - s) + 1 := by omega
  have hlast : (List.range' s (e + 1 - s)).getLast? = some e := by
    rw [hn, List.range'_1_concat, List.getLast?_concat]
    congr 1
    omega
  have hfull : (filteredTransactions p l).filter (fun t => decide (t.date ≤ e)) =
      filteredTransactions p l := by
    apply List.filter_eq_self.mpr
    intro t ht
    simpa using (hb t ht).2
  rw [heq, List.getLast?_map, hlast]
  have hbal : netI ((filteredTransactions p l).filter (fun t => decide (t.date ≤ e))) =
      (creditTotal (filteredTransactions p l) : Int) -
        (debitTotal (filteredTransactions p l) : Int) := by
    rw [hfull, netI_eq_totals]
  simp [hbal]

/-- Witness for C6: concrete instance on the §8 gap-fill ledger. -/
theorem final_balance_eq_totals_witness :
    ((dailySeries none gapLedger).getLast?).map (fun q => q.balance) =
      some ((creditTotal (filteredTransactions none gapLedger) : Int) -
        (debitTotal (filteredTransactions none gapLedger) : Int)) :=
  final_balance_eq_totals none gapLedger (by decide)

/-- C2 (amended): the day-walk batches same-date transactions — the
daily series has pairwise-distinct dates (one entry per calendar day),
and for credit 50 followed by debit 80 on one day it is the single entry
(day 1, balance −30, active).  The runway calculator, by contrast,
detects exhaustion transaction by transaction, so a day whose post-day
net balance is non-negative can still be reported as the exhaustion
date: for debit 80 then credit 100 on day 1 (day net +20) it reports
exhaustion on day 1 with shortfall 80. -/
theorem same_day_batching (p : Option PaymentType) (l : List Transaction) :
    ((dailySeries p l).map (fun q => q.date)).Nodup ∧
    dailySeries none sameDayLedger =
      [{ date := 1, balance := -30, hasTransaction := true }] ∧
    netI maskLedger = 20 ∧
    calculateRunway none maskLedger 0 =
      { days := some 1, isRunwayExhausted := true, lastSustainableDate := 1,
        amountNeeded := 80, isInfinite := false } := by
  refine ⟨?_, by decide, by decide, by decide⟩
  by_cases hne : filteredTransactions p l = []
  · rw [dailySeries_nil p l hne]
    simp
  · obtain ⟨s, e, _, _, _, heq⟩ := dailySeries_eq_map p l hne
    rw [heq, List.map_map]
    have hcomp : ((fun q : DailyBalancePoint => q.date) ∘
        dayPoint (filteredTransactions p l)) = fun d => d := rfl
    rw [hcomp]
    simpa using List.nodup_range' s (e + 1 - s)

/-- C9: zero distinct transaction dates give an empty series and exactly
one distinct date gives a singleton series (the builder is a total
function — no error); the series extrema always bracket zero. -/
theorem degenerate_series_safe (p : Option PaymentType) (l : List Transaction) :
    ((((filteredTransactions p l).map (fun t => t.date)).dedup.length = 0 →
        dailySeries p l = []) ∧
      (((filteredTransactions p l).map (fun t => t.date)).dedup.length = 1 →
        (dailySeries p l).length = 1)) ∧
    minBalance p l ≤ 0 ∧ 0 ≤ maxBalance p l := by
  refine ⟨⟨?_, ?_⟩, foldr_min_le _ 0, le_foldr_max _ 0⟩
  · intro h0
    have hd : ((filteredTransactions p l).map (fun t => t.date)).dedup = [] :=
      List.length_eq_zero.mp h0
    have hm : (filteredTransactions p l).map (fun t => t.date) = [] :=
      (List.dedup_eq_nil _).mp hd
    exact dailySeries_nil p l (List.map_eq_nil_iff.mp hm)
  · intro h1
    obtain ⟨d0, hd0⟩ :=
      List.length_eq_one.mp h1
    have hne : filteredTransactions p l ≠ [] := by
      intro h0
      rw [h0] at hd0
      cases hd0
    obtain ⟨s, e, ⟨ts, hts, htsdate⟩, ⟨te, hte, htedate⟩, hb, heq⟩ :=
      dailySeries_eq_map p l hne
    have halld : ∀ t ∈ filteredTransactions p l, t.date = d0 := by
      intro t ht
      have : t.date ∈ ((filteredTransactions p l).map (fun u => u.date)).dedup := by
        rw [List.mem_dedup]
        exact List.mem_map.mpr ⟨t, ht, rfl⟩
      rw [hd0] at this
      simpa using this
    have hs : s = d0 := by rw [← htsdate]; exact halld ts hts
    have he : e = d0 := by rw [← htedate]; exact halld te hte
    rw [heq, List.length_map, hs, he]
    simp

/-- Witness for C9: a one-transaction ledger has exactly one distinct
date and its series has length one. -/
theorem degenerate_series_safe_witness :
    (dailySeries none [⟨TxType.credit, 5, 3, PaymentType.white⟩]).length = 1 :=
  (degenerate_series_safe none [⟨TxType.credit, 5, 3, PaymentType.white⟩]).1.2 (by decide)

/-- C2 counterexample: with debit 80 then credit 100 both on day 1 the
day nets +20 (non-negative), yet the runway calculator reports day 1 as
the exhaustion date — exhaustion is not evaluated on the post-day net
balance. -/
theorem same_day_batching_counterexample :
    netI (maskLedger.filter (fun t => decide (t.date ≤ 1))) = 20 ∧
    (calculateRunway none maskLedger 0).isRunwayExhausted = true ∧
    (calculateRunway none maskLedger 0).lastSustainableDate = 1 := by
  decide

/-- Reference scan of §4.3, stated on the processed transaction
sequence: starting from balance `b`, find the first transaction after
which the running balance is strictly negative, and return its date and
the absolute balance there.  When every date carries at most one
transaction the processed sequence coincides with the day-walk, so this
is "the first day whose post-day balance is strictly negative" of the
specification. -/
def specFirstNegativeDay : Int → List Transaction → Option (Nat × Nat)
  | _, [] => none
  | b, t :: rest =>
    let b2 := b + txSigned t
    if b2 < 0 then some (t.date, b2.natAbs) else specFirstNegativeDay b2 rest

theorem runwayLoop_eq_specFirstNegativeDay :
    ∀ (l : List Transaction) (b : Int), 0 ≤ b →
      runwayLoop l b = specFirstNegativeDay b l := by
  intro l
  induction l with
  | nil => intro b _; rfl
  | cons t rest ih =>
    intro b hb
    obtain ⟨ty, am, da, pt⟩ := t
    cases ty with
    | credit =>
      have hs : txSigned ⟨TxType.credit, am, da, pt⟩ = (am : Int) := rfl
      simp only [runwayLoop, specFirstNegativeDay, hs]
      rw [if_neg (by omega)]
      exact ih _ (by omega)
    | debit =>
      have hs : txSigned ⟨TxType.debit, am, da, pt⟩ = -(am : Int) := rfl
      simp only [runwayLoop, specFirstNegativeDay, hs]
      have hrw : b - (am : Int) = b + -(am : Int) := by ring
      rw [hrw]
      by_cases hneg : b + -(am : Int) < 0
      · rw [if_pos hneg, if_pos hneg]
      · rw [if_neg hneg, if_neg hneg]
        exact ih _ (by omega)

theorem specFirstNegativeDay_debit :
    ∀ (l : List Transaction) (b : Int) (v : Nat × Nat), 0 ≤ b →
      specFirstNegativeDay b l = some v →
      l.any (fun t => t.type == TxType.debit) = true := by
  intro l
  induction l with
  | nil =>
    intro b v _ h
    cases h
  | cons t rest ih =>
    intro b v hb h
    obtain ⟨ty, am, da, pt⟩ := t
    cases ty with
    | credit =>
      simp only [specFirstNegativeDay] at h
      have hs : txSigned ⟨TxType.credit, am, da, pt⟩ = (am : Int) := rfl
      rw [hs] at h
      rw [if_neg (by omega)] at h
      simp only [List.any_cons]
      rw [ih _ v (by omega) h]
      simp
    | debit =>
      simp [List.any_cons]

/-- C3 (amended): for a ledger whose filtered projection has pairwise
distinct transaction dates — so the processed sequence is exactly the
day-walk — and whose running balance goes strictly negative, the
calculator reports the first day whose post-day balance is strictly
negative as the exhaustion date, with `amountNeeded` the absolute value
of that day's balance; the §8 scenario yields bounded, day 3,
shortfall 20.  (When one date carries several transactions the
calculator can instead break mid-day — see the counterexample.) -/
theorem exhaustion_first_negative_day (p : Option PaymentType) (l : List Transaction)
    (today : Nat) (d a : Nat)
    (hnodup : ((filteredTransactions p l).map (fun t => t.date)).Nodup)
    (hfirst : specFirstNegativeDay 0 ((filteredTransactions p l).insertionSort dateLE) =
      some (d, a)) :
    calculateRunway p l today =
      { days := some ((d : Int) - (today : Int)), isRunwayExhausted := true,
        lastSustainableDate := d, amountNeeded := a, isInfinite := false } ∧
    calculateRunway none exampleLedger3 0 =
      { days := some 3, isRunwayExhausted := true, lastSustainableDate := 3,
        amountNeeded := 20, isInfinite := false } := by
  refine ⟨?_, by decide⟩
  have hloop : runwayLoop ((filteredTransactions p l).insertionSort dateLE) 0 =
      some (d, a) := by
    rw [runwayLoop_eq_specFirstNegativeDay _ 0 (le_refl 0)]
    exact hfirst
  have hany := specFirstNegativeDay_debit _ 0 (d, a) (le_refl 0) hfirst
  have hempty : ((filteredTransactions p l).insertionSort dateLE).isEmpty = false := by
    rcases hh : (filteredTransactions p l).insertionSort dateLE with _ | ⟨x, xs⟩
    · rw [hh] at hany
      cases hany
    · rfl
  simp [calculateRunway, hempty, hany, hloop]

/-- C3 counterexample: for [debit 80 day 1, credit 100 day 1,
debit 30 day 2] the day-walk balances are +20 after day 1 and −10 after
day 2, so the first day with a strictly negative post-day balance is
day 2 with shortfall 10 — but the calculator reports day 1 with
shortfall 80. -/
theorem exhaustion_first_negative_day_counterexample :
    netI (maskLedger2.filter (fun t => decide (t.date ≤ 1))) = 20 ∧
    netI (maskLedger2.filter (fun t => decide (t.date ≤ 2))) = -10 ∧
    (calculateRunway none maskLedger2 0).lastSustainableDate = 1 ∧
    (calculateRunway none maskLedger2 0).amountNeeded = 80 ∧
    ¬((calculateRunway none maskLedger2 0).lastSustainableDate = 2 ∧
      (calculateRunway none maskLedger2 0).amountNeeded = 10) := by
  decide

/-- Witness for C3: the §8 exhaustion ledger has pairwise distinct dates
and its first negative day is day 3 with shortfall 20. -/
theorem exhaustion_first_negative_day_witness :
    calculateRunway none exampleLedger3 0 =
      { days := some 3, isRunwayExhausted := true, lastSustainableDate := 3,
        amountNeeded := 20, isInfinite := false } :=
  (exhaustion_first_negative_day none exampleLedger3 0 3 20 (by decide) (by decide)).1

/-- The pending need recorded after processing one transaction: the
(negative) running balance when the transaction is a debit leaving the
balance negative, zero otherwise. -/
def needAfter (t : Transaction) (b : Int) : Int :=
  if t.type = TxType.debit ∧ b < 0 then b else 0

theorem fnStep_same_date (s : FNState) (t : Transaction)
    (h : s.currentDate = some t.date) :
    fnStep s t =
      { runningBalance := s.runningBalance + txSigned t,
        currentDate := s.currentDate,
        currentNeed := needAfter t (s.runningBalance + txSigned t),
        fundingNeeds := s.fundingNeeds } := by
  simp only [fnStep, if_pos h, needAfter]

theorem fnStep_new_date (s : FNState) (t : Transaction)
    (h : ¬ s.currentDate = some t.date) :
    fnStep s t =
      { runningBalance := s.runningBalance + txSigned t,
        currentDate := some t.date,
        currentNeed := needAfter t (s.runningBalance + txSigned t),
        fundingNeeds := s.fundingNeeds ++ pendingPush s } := by
  simp only [fnStep, if_neg h, needAfter]

theorem foldl_fnStep_same_group :
    ∀ (g : List Transaction) (s : FNState) (d : Nat),
      (∀ t ∈ g, t.date = d) → s.currentDate = some d →
      (g.foldl fnStep s).runningBalance = s.runningBalance + netI g ∧
      (g.foldl fnStep s).currentDate = some d ∧
      (g.foldl fnStep s).fundingNeeds = s.fundingNeeds ∧
      (g.foldl fnStep s).currentNeed =
        (match g.getLast? with
          | none => s.currentNeed
          | some u => needAfter u (s.runningBalance + netI g)) := by
  intro g
  induction g with
  | nil =>
    intro s d hall hcd
    refine ⟨by simp, by simpa using hcd, rfl, rfl⟩
  | cons t g' ih =>
    intro s d hall hcd
    have htd : t.date = d := hall t (List.mem_cons_self t g')
    have hstep := fnStep_same_date s t (by rw [hcd, htd])
    have hih := ih (fnStep s t) d (fun u hu => hall u (List.mem_cons_of_mem _ hu))
      (by rw [hstep]; simpa using hcd)
    rw [List.foldl_cons] at *
    obtain ⟨hb, hcd2, hn, hcn⟩ := hih
    refine ⟨?_, hcd2, ?_, ?_⟩
    · rw [hb]
      simp only [hstep, netI_cons]
      ring
    · rw [hn]
      simp only [hstep]
    · rw [hcn]
      simp only [hstep]
      cases g' with
      | nil =>
        simp [needAfter, netI_cons]
      | cons u r =>
        rw [List.getLast?_cons_cons]
        cases hgl : (u :: r).getLast? with
        | none =>
          exfalso
          rw [List.getLast?_eq_getLast (u :: r) (by simp)] at hgl
          cases hgl
        | some v =>
          simp only [netI_cons]
          congr 1
          ring

theorem foldl_fnStep_enter_group :
    ∀ (g : List Transaction) (s : FNState) (d : Nat), g ≠ [] →
      (∀ t ∈ g, t.date = d) → ¬ s.currentDate = some d →
      (g.foldl fnStep s).runningBalance = s.runningBalance + netI g ∧
      (g.foldl fnStep s).currentDate = some d ∧
      (g.foldl fnStep s).fundingNeeds = s.fundingNeeds ++ pendingPush s ∧
      (g.foldl fnStep s).currentNeed =
        (match g.getLast? with
          | none => 0
          | some u => needAfter u (s.runningBalance + netI g)) := by
  intro g s d hne hall hcd
  cases g with
  | nil => exact absurd rfl hne
  | cons t g' =>
    have htd : t.date = d := hall t (List.mem_cons_self t g')
    have hstep := fnStep_new_date s t (by rw [htd]; exact hcd)
    rw [List.foldl_cons]
    have hih := foldl_fnStep_same_group g' (fnStep s t) d
      (fun u hu => hall u (List.mem_cons_of_mem _ hu))
      (by simp only [hstep]; rw [htd])
    obtain ⟨hb, hcd2, hn, hcn⟩ := hih
    refine ⟨?_, hcd2, ?_, ?_⟩
    · rw [hb]
      simp only [hstep, netI_cons]
      ring
    · rw [hn]
      simp only [hstep]
    · rw [hcn]
      simp only [hstep]
      cases g' with
      | nil =>
        simp [needAfter, netI_cons]
      | cons u r =>
        rw [List.getLast?_cons_cons]
        cases hgl : (u :: r).getLast? with
        | none =>
          exfalso
          rw [List.getLast?_eq_getLast (u :: r) (by simp)] at hgl
          cases hgl
        | some v =>
          simp only [netI_cons]
          congr 1
          ring

/-- Decomposition of a transaction list into maximal runs of equal
dates; each group carries its date and the (contiguous) transactions of
that date. -/
def groupByDate : List Transaction → List (Nat × List Transaction)
  | [] => []
  | t :: rest =>
    (t.date, t :: rest.takeWhile (fun u => decide (u.date = t.date))) ::
      groupByDate (rest.dropWhile (fun u => decide (u.date = t.date)))
termination_by l => l.length
decreasing_by
  simp only [List.length_cons]
  exact Nat.lt_succ_of_le ((List.dropWhile_sublist _).length_le)

/-- Structural invariant of `groupByDate` on a date-sorted input: every
group is non-empty and uniform in its date, and all later groups carry
strictly larger dates. -/
def GoodGroups : List (Nat × List Transaction) → Prop
  | [] => True
  | (d, g) :: G =>
    g ≠ [] ∧ (∀ t ∈ g, t.date = d) ∧ (∀ q ∈ G, d < q.1) ∧ GoodGroups G

theorem takeWhile_eq_filter_of_sorted :
    ∀ (l : List Transaction) (d : Nat),
      l.Pairwise dateLE → (∀ u ∈ l, d ≤ u.date) →
      l.takeWhile (fun u => decide (u.date = d)) =
        l.filter (fun u => decide (u.date = d)) := by
  intro l
  induction l with
  | nil => intro d _ _; rfl
  | cons u l' ih =>
    intro d hp hge
    rw [List.takeWhile_cons, List.filter_cons]
    by_cases hu : u.date = d
    · rw [if_pos (by simpa using hu), if_pos (by simpa using hu)]
      congr 1
      exact ih d (List.pairwise_cons.mp hp).2
        (fun v hv => hge v (List.mem_cons_of_mem _ hv))
    · rw [if_neg (by simpa using hu), if_neg (by simpa using hu)]
      symm
      apply List.filter_eq_nil_iff.mpr
      intro v hv
      have h1 : d ≤ u.date := hge u (List.mem_cons_self _ _)
      have h2 : u.date ≤ v.date := (List.pairwise_cons.mp hp).1 v hv
      simp only [decide_eq_true_eq]
      omega

theorem dropWhile_dates_gt_of_sorted :
    ∀ (l : List Transaction) (d : Nat),
      l.Pairwise dateLE → (∀ u ∈ l, d ≤ u.date) →
      ∀ v ∈ l.dropWhile (fun u => decide (u.date = d)), d < v.date := by
  intro l
  induction l with
  | nil => intro d _ _ v hv; cases hv
  | cons u l' ih =>
    intro d hp hge v hv
    rw [List.dropWhile_cons] at hv
    by_cases hu : u.date = d
    · rw [if_pos (by simpa using hu)] at hv
      exact ih d (List.pairwise_cons.mp hp).2
        (fun w hw => hge w (List.mem_cons_of_mem _ hw)) v hv
    · rw [if_neg (by simpa using hu)] at hv
      have h1 : d ≤ u.date := hge u (List.mem_cons_self _ _)
      rcases List.mem_cons.mp hv with rfl | hv2
      · omega
      · have h2 : u.date ≤ v.date := (List.pairwise_cons.mp hp).1 v hv2
        omega

theorem groupByDate_flatten : ∀ l : List Transaction,
    ((groupByDate l).map Prod.snd).flatten = l := by
  intro l
  induction l using groupByDate.induct with
  | case1 => rw [groupByDate]; rfl
  | case2 t rest ih =>
    rw [groupByDate]
    simp only [List.map_cons, List.flatten_cons]
    rw [ih, List.cons_append, List.takeWhile_append_dropWhile]

theorem groupByDate_fst_mem :
    ∀ l : List Transaction, ∀ q ∈ groupByDate l, ∃ t ∈ l, q.1 = t.date := by
  intro l
  induction l using groupByDate.induct with
  | case1 =>
    intro q hq
    rw [groupByDate] at hq
    cases hq
  | case2 t rest ih =>
    intro q hq
    rw [groupByDate] at hq
    rcases List.mem_cons.mp hq with rfl | hq2
    · exact ⟨t, List.mem_cons_self _ _, rfl⟩
    · obtain ⟨u, hu, hqu⟩ := ih q hq2
      exact ⟨u, List.mem_cons_of_mem _
        ((List.dropWhile_sublist _).subset hu), hqu⟩

theorem groupByDate_good : ∀ l : List Transaction, l.Pairwise dateLE →
    GoodGroups (groupByDate l) := by
  intro l
  induction l using groupByDate.induct with
  | case1 =>
    intro _
    rw [groupByDate]
    trivial
  | case2 t rest ih =>
    intro hp
    have htail : rest.Pairwise dateLE := (List.pairwise_cons.mp hp).2
    have hge : ∀ u ∈ rest, t.date ≤ u.date := (List.pairwise_cons.mp hp).1
    rw [groupByDate]
    refine ⟨by simp, ?_, ?_, ?_⟩
    · intro u hu
      rcases List.mem_cons.mp hu with rfl | hu2
      · rfl
      · simpa using List.mem_takeWhile_imp hu2
    · intro q hq
      obtain ⟨v, hv, hqv⟩ := groupByDate_fst_mem _ q hq
      have := dropWhile_dates_gt_of_sorted rest t.date htail hge v hv
      omega
    · exact ih (List.Pairwise.sublist (List.dropWhile_sublist _) htail)

/-- Day-level view of the funding-need loop over a group decomposition:
for each group, one entry exactly when the group's last transaction is a
debit and the post-group running balance is negative. -/
def dayGroupsNeeds (b : Int) : List (Nat × List Transaction) → List FundingNeed
  | [] => []
  | q :: G =>
    (match q.2.getLast? with
      | none => []
      | some u =>
        if u.type = TxType.debit ∧ b + netI q.2 < 0 then
          [{ date := q.1, amountNeeded := (b + netI q.2).natAbs }]
        else []) ++ dayGroupsNeeds (b + netI q.2) G

theorem foldl_fnStep_groups :
    ∀ (G : List (Nat × List Transaction)) (s : FNState),
      GoodGroups G →
      (∀ d g G', G = (d, g) :: G' → ¬ s.currentDate = some d) →
      ((((G.map Prod.snd).flatten).foldl fnStep s).fundingNeeds ++
          pendingPush ((G.map Prod.snd).flatten.foldl fnStep s)) =
        s.fundingNeeds ++ pendingPush s ++ dayGroupsNeeds s.runningBalance G := by
  intro G
  induction G with
  | nil =>
    intro s _ _
    simp [dayGroupsNeeds]
  | cons q G' ih =>
    intro s hgood hhead
    obtain ⟨d, g⟩ := q
    obtain ⟨hgne, hgd, hlt, hgood'⟩ := hgood
    have hne_cd : ¬ s.currentDate = some d := hhead d g G' rfl
    simp only [List.map_cons, List.flatten_cons]
    rw [List.foldl_append]
    obtain ⟨hb, hcd, hn, hcn⟩ := foldl_fnStep_enter_group g s d hgne hgd hne_cd
    have hpp : pendingPush (g.foldl fnStep s) =
        (match g.getLast? with
          | none => ([] : List FundingNeed)
          | some u =>
            if u.type = TxType.debit ∧ s.runningBalance + netI g < 0 then
              [{ date := d, amountNeeded := (s.runningBalance + netI g).natAbs }]
            else []) := by
      cases hgl : g.getLast? with
      | none =>
        exfalso
        rw [List.getLast?_eq_getLast g hgne] at hgl
        cases hgl
      | some u =>
        rw [hgl] at hcn
        unfold pendingPush
        rw [hcn, hcd]
        simp only [needAfter, Option.getD_some]
        by_cases hcond : u.type = TxType.debit ∧ s.runningBalance + netI g < 0
        · rw [if_pos hcond, if_pos hcond.2, if_pos hcond]
        · rw [if_neg hcond, if_neg (by simp), if_neg hcond]
    have hih := ih (g.foldl fnStep s) hgood' ?_
    · rw [hih, hb, hn, hpp]
      simp only [dayGroupsNeeds, List.append_assoc]
    · intro d2 g2 G'' hG'
      rw [hcd]
      have hd2 : d < d2 := by
        have := hlt (d2, g2) (by rw [hG']; exact List.mem_cons_self _ _)
        simpa using this
      simp only [Option.some.injEq]
      omega

theorem dedup_const_append :
    ∀ (xs : List Nat) (d : Nat) (m : List Nat), xs ≠ [] →
      (∀ x ∈ xs, x = d) → d ∉ m → (xs ++ m).dedup = d :: m.dedup := by
  intro xs
  induction xs with
  | nil => intro d m h _ _; exact absurd rfl h
  | cons x xs ih =>
    intro d m _ hall hdm
    have hx : x = d := hall x (List.mem_cons_self _ _)
    subst hx
    cases xs with
    | nil =>
      simp only [List.nil_append, List.singleton_append]
      exact List.dedup_cons_of_not_mem hdm
    | cons y ys =>
      have hy : y = x := hall y (List.mem_cons_of_mem _ (List.mem_cons_self _ _))
      rw [List.cons_append, List.dedup_cons_of_mem]
      · exact ih x m (by simp) (fun z hz => hall z (List.mem_cons_of_mem _ hz)) hdm
      · rw [List.cons_append, hy]
        exact List.mem_cons_self _ _

/-- Day-level reference for the funding-need projector, following the
specification's per-day wording: for each distinct date `d` of the
processed (date-sorted) sequence, in order, look at the day's last
processed transaction and the post-day running balance
`b0 + net(transactions dated ≤ d)`; emit one `FundingNeed` exactly when
that last transaction is a debit and the balance is strictly negative,
with amount the absolute value of the balance. -/
def dayLevelNeeds (b0 : Int) (sf : List Transaction) : List FundingNeed :=
  ((sf.map (fun t => t.date)).dedup).filterMap (fun d =>
    match (sf.filter (fun t => decide (t.date = d))).getLast? with
    | none => none
    | some u =>
      if u.type = TxType.debit ∧
          b0 + netI (sf.filter (fun t => decide (t.date ≤ d))) < 0 then
        some { date := d,
               amountNeeded :=
                 (b0 + netI (sf.filter (fun t => decide (t.date ≤ d)))).natAbs }
      else none)

theorem dayGroupsNeeds_eq_dayLevelNeeds :
    ∀ (l : List Transaction), l.Pairwise dateLE → ∀ b : Int,
      dayGroupsNeeds b (groupByDate l) = dayLevelNeeds b l := by
  intro l
  induction l using groupByDate.induct with
  | case1 =>
    intro _ b
    rw [groupByDate]
    simp [dayGroupsNeeds, dayLevelNeeds]
  | case2 t rest ih =>
    intro hp b
    have htail : rest.Pairwise dateLE := (List.pairwise_cons.mp hp).2
    have hge : ∀ u ∈ rest, t.date ≤ u.date := (List.pairwise_cons.mp hp).1
    have hr_sorted : (rest.dropWhile (fun u => decide (u.date = t.date))).Pairwise dateLE :=
      List.Pairwise.sublist (List.dropWhile_sublist _) htail
    have hrgt := dropWhile_dates_gt_of_sorted rest t.date htail hge
    have htw := takeWhile_eq_filter_of_sorted rest t.date htail hge
    rw [groupByDate]
    set g : List Transaction :=
      t :: rest.takeWhile (fun u => decide (u.date = t.date)) with hg
    set r : List Transaction :=
      rest.dropWhile (fun u => decide (u.date = t.date)) with hr
    have hgne : g ≠ [] := by simp [hg]
    have huni : ∀ u ∈ g, u.date = t.date := by
      intro u hu
      rw [hg] at hu
      rcases List.mem_cons.mp hu with rfl | hu2
      · rfl
      · simpa using List.mem_takeWhile_imp hu2
    have hsplit : t :: rest = g ++ r := by
      rw [hg, hr, List.cons_append, List.takeWhile_append_dropWhile]
    have hF5 : (t :: rest).filter (fun u => decide (u.date = t.date)) = g := by
      rw [List.filter_cons, if_pos (by simp), hg, htw]
    have hgfull : g.filter (fun u => decide (u.date ≤ t.date)) = g := by
      apply List.filter_eq_self.mpr
      intro u hu
      simp only [decide_eq_true_eq]
      exact le_of_eq (huni u hu)
    have hrnone : r.filter (fun u => decide (u.date ≤ t.date)) = [] := by
      apply List.filter_eq_nil_iff.mpr
      intro v hv
      have := hrgt v hv
      simp only [decide_eq_true_eq]
      omega
    have hF6 : (t :: rest).filter (fun u => decide (u.date ≤ t.date)) = g := by
      rw [hsplit, List.filter_append, hgfull, hrnone, List.append_nil]
    have hF4 : ((t :: rest).map (fun u => u.date)).dedup =
        t.date :: (r.map (fun u => u.date)).dedup := by
      rw [hsplit, List.map_append]
      apply dedup_const_append
      · simp [hg]
      · intro x hx
        obtain ⟨u, hu, rfl⟩ := List.mem_map.mp hx
        exact huni u hu
      · intro hx
        obtain ⟨u, hu, hud⟩ := List.mem_map.mp hx
        have := hrgt u hu
        omega
    simp only [dayGroupsNeeds, dayLevelNeeds]
    rw [hF4, List.filterMap_cons]
    rw [hF5, hF6]
    have htails : dayGroupsNeeds (b + netI g) (groupByDate r) =
        (( r.map (fun u => u.date)).dedup).filterMap (fun d =>
          match ((t :: rest).filter (fun u => decide (u.date = d))).getLast? with
          | none => none
          | some u =>
            if u.type = TxType.debit ∧
                b + netI ((t :: rest).filter (fun u2 => decide (u2.date ≤ d))) < 0 then
              some { date := d,
                     amountNeeded :=
                       (b + netI ((t :: rest).filter
                         (fun u2 => decide (u2.date ≤ d)))).natAbs }
            else none) := by
      rw [ih hr_sorted (b + netI g)]
      rw [dayLevelNeeds]
      apply List.filterMap_congr
      intro d' hd'
      have hd'mem : d' ∈ r.map (fun u => u.date) := List.mem_dedup.mp hd'
      obtain ⟨v, hv, hvd⟩ := List.mem_map.mp hd'mem
      have hdlt : t.date < d' := by
        have := hrgt v hv
        omega
      have hF7a : (t :: rest).filter (fun u => decide (u.date = d')) =
          r.filter (fun u => decide (u.date = d')) := by
        rw [hsplit, List.filter_append]
        have : g.filter (fun u => decide (u.date = d')) = [] := by
          apply List.filter_eq_nil_iff.mpr
          intro w hw
          have := huni w hw
          simp only [decide_eq_true_eq]
          omega
        rw [this, List.nil_append]
      have hgall : g.filter (fun u => decide (u.date ≤ d')) = g := by
        apply List.filter_eq_self.mpr
        intro w hw
        have := huni w hw
        simp only [decide_eq_true_eq]
        omega
      have hF7b : netI ((t :: rest).filter (fun u => decide (u.date ≤ d'))) =
          netI g + netI (r.filter (fun u => decide (u.date ≤ d'))) := by
        rw [hsplit, List.filter_append, netI_append, hgall]
      rw [hF7a, hF7b]
      have hassoc : b + (netI g + netI (r.filter (fun u => decide (u.date ≤ d')))) =
          b + netI g + netI (r.filter (fun u => decide (u.date ≤ d'))) := by
        ring
      rw [hassoc]
    rw [htails]
    cases hgl : g.getLast? with
    | none =>
      exfalso
      rw [List.getLast?_eq_getLast g hgne] at hgl
      cases hgl
    | some u =>
      by_cases hcond : u.type = TxType.debit ∧ b + netI g < 0
      · simp [hcond.1, hcond.2]
      · simp [hcond]

theorem futureNeedsRun_eq_dayLevelNeeds (p : Option PaymentType) (l : List Transaction)
    (lsd : Nat) :
    futureNeedsRun p l lsd =
      dayLevelNeeds
        (netI ((filteredTransactions p l).filter (fun t => decide (t.date ≤ lsd))))
        (((filteredTransactions p l).filter
          (fun t => decide (lsd < t.date))).insertionSort dateLE) := by
  have hsorted : (((filteredTransactions p l).filter
      (fun t => decide (lsd < t.date))).insertionSort dateLE).Pairwise dateLE :=
    List.sorted_insertionSort dateLE _
  set sf := ((filteredTransactions p l).filter
    (fun t => decide (lsd < t.date))).insertionSort dateLE with hsf
  set b0 := netI ((filteredTransactions p l).filter
    (fun t => decide (t.date ≤ lsd))) with hb0
  have hkey := foldl_fnStep_groups (groupByDate sf)
    { runningBalance := b0, currentDate := none, currentNeed := 0, fundingNeeds := [] }
    (groupByDate_good sf hsorted) (by intro d g G' _; simp)
  rw [groupByDate_flatten sf] at hkey
  have hstart : pendingPush
      { runningBalance := b0, currentDate := none, currentNeed := 0,
        fundingNeeds := [] } = [] := by
    simp [pendingPush]
  rw [hstart] at hkey
  simp only [List.nil_append, List.append_nil] at hkey
  simp only [futureNeedsRun]
  rw [hkey]
  exact dayGroupsNeeds_eq_dayLevelNeeds sf hsorted b0

/-- C1 (amended): for every bounded ledger the projector emits, for each
distinct transaction date strictly after the exhaustion date (scanned in
the projector's date-sorted processing order), one entry exactly when
that day's last processed transaction is a debit and the post-day
running balance is strictly negative, with amount the absolute value of
that balance; a day whose post-day balance is non-negative gets no
entry, and neither does a negative day whose last transaction is a
credit.  For the §8 continuation ledger the output is exactly
[{day4, 30}]: the entry {day5, 25} the specification expected is not
emitted, because day 5's transaction is a credit. -/
theorem funding_needs_day_characterization (p : Option PaymentType)
    (l : List Transaction) (today : Nat)
    (h : (calculateRunway p l today).isRunwayExhausted = true) :
    calculateFutureNeeds p l today =
      dayLevelNeeds
        (netI ((filteredTransactions p l).filter
          (fun t => decide (t.date ≤ (calculateRunway p l today).lastSustainableDate))))
        (((filteredTransactions p l).filter
          (fun t => decide ((calculateRunway p l today).lastSustainableDate < t.date))).insertionSort
            dateLE) ∧
    calculateFutureNeeds none exampleLedger5 0 = [{ date := 4, amountNeeded := 30 }] := by
  refine ⟨?_, by decide⟩
  rw [calculateFutureNeeds_of_exhausted h]
  exact futureNeedsRun_eq_dayLevelNeeds p l (calculateRunway p l today).lastSustainableDate

/-- C1 counterexample: on the §8 continuation ledger the projector emits
only {day4, 30}; day 5's net running balance is −25 (strictly negative),
yet no day-5 entry appears, so the output differs from the
[{day4, 30}, {day5, 25}] the claim requires. -/
theorem funding_needs_day_characterization_counterexample :
    calculateFutureNeeds none exampleLedger5 0 = [{ date := 4, amountNeeded := 30 }] ∧
    netI (exampleLedger5.filter (fun t => decide (t.date ≤ 5))) = -25 ∧
    calculateFutureNeeds none exampleLedger5 0 ≠
      [{ date := 4, amountNeeded := 30 }, { date := 5, amountNeeded := 25 }] := by
  decide

/-- Witness for C1: the §8 continuation ledger is bounded and its
funding-need list is exactly [{day4, 30}]. -/
theorem funding_needs_day_characterization_witness :
    calculateFutureNeeds none exampleLedger5 0 = [{ date := 4, amountNeeded := 30 }] :=
  (funding_needs_day_characterization none exampleLedger5 0 (by decide)).2

end Ledger
